import Mathlib

/-!
Verification of the fastq-pair indexing-and-matching engine
(`src/fastq_pair.c`), shallowly embedded in Lean 4.

Files are modelled as lists: a FASTQ record is the four raw lines
(header, sequence, separator, quality), and a stream is a list of
records (or, for the line-granularity model of the read loop, a list
of raw lines).  `tell`-style offsets are modelled as record indices
(resp. line indices): the record store contract guarantees that
seeking to a previously told position and reading four lines yields
the record that started there, so the index is a faithful abstraction
of the byte offset.
-/

set_option autoImplicit false

namespace FastqPair

/-- A raw line is a list of characters (the C `char *` buffer contents
up to the terminating NUL). -/
abbrev Line := List Char

/-- One FASTQ record: the four raw lines as read by `fgets`/`gzgets`. -/
structure FastqRecord where
  header : Line
  seqline : Line
  plusline : Line
  qual : Line
deriving DecidableEq, Repr

/-- One hash-table entry (C `struct idloc`): canonical id, recorded
position, and the printed flag. -/
structure IdLoc where
  id : Line
  pos : Nat
  printed : Bool
deriving DecidableEq, Repr

/-- Truncate a line at the first occurrence of any of the given
characters; models `line[strcspn(line, bad)] = '\0'`. -/
def stripAt (bad : List Char) (s : Line) : Line :=
  s.takeWhile (fun c => !(bad.contains c))

/-- The separator characters recognized before a mate marker
(`'/'`, `'_'`, `'.'` — source line 202). -/
def isSep (c : Char) : Bool := c == '/' || c == '_' || c == '.'

/-- The mate-marker characters (`'1'`, `'2'`, `'f'`, `'r'` — source
line 203). -/
def isMate (c : Char) : Bool := c == '1' || c == '2' || c == 'f' || c == 'r'

/-- The suffix-handling core of the id normalizer (source lines
200-209).  The C code reads `line[L-1]` and `line[L-2]`; when the
second-to-last character is a separator and the last one a mate
marker it writes `'\0'` at `L-1` (so the string becomes `take (L-1)`);
when the second-to-last character is not a separator it writes `'\0'`
at `L+1` (beyond the current end, leaving the string contents
unchanged) and `'/'` at `L-1` (so the last character is overwritten).
For `L < 2` the C accesses are out of bounds (see the access-bounds
theorem); the model returns the string unchanged there. -/
def normCore (s : Line) : Line :=
  if 2 ≤ s.length then
    if isSep (s.getD (s.length - 2) ' ') then
      if isMate (s.getLastD ' ') then s.take (s.length - 1) else s
    else
      s.set (s.length - 1) '/'
  else s

/-- Full id normalization of a raw header line (source lines 185-209):
strip at the first newline, optionally truncate at the first space or
tab, then apply the suffix rule. -/
def normalizeId (split : Bool) (s : Line) : Line :=
  let s1 := stripAt ['\n'] s
  let s2 := if split then stripAt [' ', '\t'] s1 else s1
  normCore s2

/-- The modulus of the C `unsigned` arithmetic (32 bits). -/
def M32 : Nat := 4294967296

/-- One step of the hash accumulator: `hashval = *s + 31 * hashval`
in `unsigned` arithmetic (source lines 569-570). -/
def hashStep (h : Nat) (c : Char) : Nat := (c.toNat + 31 * h) % M32

/-- The hash loop with explicit accumulator. -/
def hashAux (h : Nat) (s : Line) : Nat := s.foldl hashStep h

/-- The `hash` function of the source (lines 566-572). -/
def hashC (s : Line) : Nat := hashAux 0 s

/-- Bucket selection: `hash(line) % opt->tablesize` (source line 215). -/
def bucketOf (T : Nat) (s : Line) : Nat := hashC s % T

/-- The closed polynomial form of the hash (before the final modulus),
stated from the specification's description of the accumulator. -/
def hashPoly : Line → Nat
  | [] => 0
  | c :: t => c.toNat * 31 ^ t.length + hashPoly t

/-- Does a bucket chain contain an entry whose id is exactly `k`?
Models the `strcmp`-scan of a chain (source lines 219-231). -/
def chainHasId (chain : List IdLoc) (k : Line) : Bool :=
  chain.any (fun e => decide (e.id = k))

/-- State of the index-building pass: the table (one chain per bucket,
head = most recently inserted) and the duplicate counter. -/
structure BuildState where
  table : List (List IdLoc)
  dups : Nat
deriving DecidableEq, Repr

/-- Processing of one canonical id during the build pass (source lines
214-242): with deduplication, an exact-string match anywhere in the
target chain suppresses the insertion and bumps the duplicate counter;
otherwise a fresh unprinted entry is pushed at the chain head. -/
def insertEntry (dedup : Bool) (T : Nat) (st : BuildState) (k : Line) (pos : Nat) :
    BuildState :=
  let b := bucketOf T k
  let chain := st.table.getD b []
  if dedup && chainHasId chain k then
    { st with dups := st.dups + 1 }
  else
    { st with table := st.table.set b (⟨k, pos, false⟩ :: chain) }

/-- The left-stream build loop over records, carrying the record index
(the model of the `tell` position of the record's start). -/
def buildAux (dedup split : Bool) (T : Nat) :
    List FastqRecord → Nat → BuildState → BuildState
  | [], _, st => st
  | r :: rest, i, st =>
      buildAux dedup split T rest (i + 1)
        (insertEntry dedup T st (normalizeId split r.header) i)

/-- Building the left index from the left stream (source lines
171-250). -/
def buildLeft (dedup split : Bool) (T : Nat) (recs : List FastqRecord) :
    BuildState :=
  buildAux dedup split T recs 0 ⟨List.replicate T [], 0⟩

/-- The line-granularity model of the left build loop (source lines
171-250): read one header line; index it; then read three more lines
whose success is never checked, so a truncated trailing record is
consumed silently.  The position counts consumed lines (`tell`). -/
def buildLinesAux (dedup split : Bool) (T : Nat) :
    List Line → Nat → BuildState → BuildState
  | [], _, st => st
  | [h], pos, st => insertEntry dedup T st (normalizeId split h) pos
  | [h, _], pos, st => insertEntry dedup T st (normalizeId split h) pos
  | [h, _, _], pos, st => insertEntry dedup T st (normalizeId split h) pos
  | h :: _ :: _ :: _ :: rest, pos, st =>
      buildLinesAux dedup split T rest (pos + 4)
        (insertEntry dedup T st (normalizeId split h) pos)

/-- Building the left index at line granularity. -/
def buildLeftLines (dedup split : Bool) (T : Nat) (ls : List Line) : BuildState :=
  buildLinesAux dedup split T ls 0 ⟨List.replicate T [], 0⟩

/-- The matcher's chain scan (source lines 425-433): walk the whole
chain carrying the candidate position (`posn`, initially `none` for
C's `-1`); every entry whose id equals the key overwrites the
candidate with its position and has its printed flag set. -/
def scanChain (k : Line) : List IdLoc → Option Nat → Option Nat × List IdLoc
  | [], p => (p, [])
  | e :: rest, p =>
      let p1 := if e.id = k then some e.pos else p
      let e1 := if e.id = k then { e with printed := true } else e
      let res := scanChain k rest p1
      (res.1, e1 :: res.2)

/-- The position the matcher would select for key `k` in table `tbl`
(the first component of the chain scan started at `none`). -/
def lookupPos (T : Nat) (tbl : List (List IdLoc)) (k : Line) : Option Nat :=
  (scanChain k (tbl.getD (bucketOf T k) []) none).1

/-- Run configuration consumed by `pair_files`. -/
structure Config where
  tablesize : Nat
  deduplicate : Bool
  splitspace : Bool
  formatid : Bool
deriving DecidableEq, Repr

/-- Full run state during and after the right-stream scan. -/
structure RunState where
  ltable : List (List IdLoc)
  rtable : List (List IdLoc)
  lp : Nat
  rp : Nat
  ls : Nat
  rs : Nat
  ld : Nat
  rd : Nat
  outLP : List FastqRecord
  outRP : List FastqRecord
  outLS : List FastqRecord
  outRS : List FastqRecord
deriving DecidableEq, Repr

/-- The default record returned when a position is (impossibly) out of
range; mirrors that the model's positions always index real records. -/
def emptyRec : FastqRecord := ⟨[], [], [], []⟩

/-- The left record emitted to the paired output for a match at
position `p` with canonical id `k` (source lines 438-447): the four
lines re-read at `p`, with the header replaced by `id ++ "1\n"` when
`formatid` is set. -/
def emitLeftPaired (cfg : Config) (lrecs : List FastqRecord) (k : Line) (p : Nat) :
    FastqRecord :=
  let r := lrecs.getD p emptyRec
  if cfg.formatid then { r with header := k ++ ['1', '\n'] } else r

/-- The right record as emitted to the paired or single output (source
lines 449-470): verbatim (the raw header line was copied before
truncation), or with the header rewritten to `id ++ "2\n"` when
`formatid` is set. -/
def rewriteRight (cfg : Config) (k : Line) (r : FastqRecord) : FastqRecord :=
  if cfg.formatid then { r with header := k ++ ['2', '\n'] } else r

/-- Processing of one right-stream record (source lines 354-477). -/
def stepRight (cfg : Config) (lrecs : List FastqRecord) (st : RunState)
    (r : FastqRecord) : RunState :=
  let k := normalizeId cfg.splitspace r.header
  let b := bucketOf cfg.tablesize k
  if cfg.deduplicate && chainHasId (st.rtable.getD b []) k then
    { st with rd := st.rd + 1 }
  else
    let st1 :=
      if cfg.deduplicate then
        { st with rtable := st.rtable.set b (⟨k, 0, false⟩ :: st.rtable.getD b []) }
      else st
    let res := scanChain k (st1.ltable.getD b []) none
    let st2 := { st1 with ltable := st1.ltable.set b res.2 }
    match res.1 with
    | some p =>
        { st2 with
            lp := st2.lp + 1, rp := st2.rp + 1,
            outLP := st2.outLP ++ [emitLeftPaired cfg lrecs k p],
            outRP := st2.outRP ++ [rewriteRight cfg k r] }
    | none =>
        { st2 with
            rs := st2.rs + 1,
            outRS := st2.outRS ++ [rewriteRight cfg k r] }

/-- The left record emitted to the single output for an unprinted
entry (source lines 484-494). -/
def emitLeftSingle (cfg : Config) (lrecs : List FastqRecord) (e : IdLoc) :
    FastqRecord :=
  let r := lrecs.getD e.pos emptyRec
  if cfg.formatid then { r with header := e.id ++ ['1', '\n'] } else r

/-- One entry of the orphan-emission sweep (source lines 483-497):
printed entries are skipped, unprinted entries are emitted and
counted. -/
def orphanStep (cfg : Config) (lrecs : List FastqRecord)
    (acc : List FastqRecord × Nat) (e : IdLoc) : List FastqRecord × Nat :=
  if e.printed then acc else (acc.1 ++ [emitLeftSingle cfg lrecs e], acc.2 + 1)

/-- The orphan-emission pass (source lines 481-498): buckets in
ascending index order, each chain head to tail. -/
def orphanEmit (cfg : Config) (lrecs : List FastqRecord)
    (tbl : List (List IdLoc)) : List FastqRecord × Nat :=
  tbl.foldl (fun acc chain => chain.foldl (orphanStep cfg lrecs) acc) ([], 0)

/-- The run state at the start of the right-stream scan. -/
def initRun (cfg : Config) (bst : BuildState) : RunState :=
  ⟨bst.table, List.replicate cfg.tablesize [], 0, 0, 0, 0, bst.dups, 0,
   [], [], [], []⟩

/-- The whole `pair_files` computation on two well-formed record
streams: build the left index, scan the right stream, then emit the
orphans. -/
def pairFiles (cfg : Config) (lrecs rrecs : List FastqRecord) : RunState :=
  let bst := buildLeft cfg.deduplicate cfg.splitspace cfg.tablesize lrecs
  let st1 := rrecs.foldl (stepRight cfg lrecs) (initRun cfg bst)
  let os := orphanEmit cfg lrecs st1.ltable
  { st1 with ls := os.2, outLS := os.1 }

/-- All entries of a table, buckets in order, chains head to tail. -/
def entriesOf (tbl : List (List IdLoc)) : List IdLoc := tbl.flatten

/-- Number of printed entries in a table. -/
def nPrinted (tbl : List (List IdLoc)) : Nat :=
  ((entriesOf tbl).filter (fun e => e.printed)).length

/-- Number of entries in a table. -/
def nEntries (tbl : List (List IdLoc)) : Nat := (entriesOf tbl).length

/-- The indices (in stream order, starting at `i`) of the records of
`recs` whose canonical id is `k`; names the insertion order of the
entries that the build pass creates for key `k`. -/
def keyIdx (split : Bool) (k : Line) : List FastqRecord → Nat → List Nat
  | [], _ => []
  | r :: rest, i =>
      if normalizeId split r.header = k then i :: keyIdx split k rest (i + 1)
      else keyIdx split k rest (i + 1)

/-- The indices read by the normalizer's suffix rule, as integers:
`line[L-2]` and `line[L-1]` (source lines 200-201). -/
def normReadIdx (L : Nat) : List Int := [(L : Int) - 2, (L : Int) - 1]

/-- The indices written in the no-mate-suffix branch: `line[L+1]` and
`line[L-1]` (source lines 207-208). -/
def normWriteIdx (L : Nat) : List Int := [(L : Int) + 1, (L : Int) - 1]

/-- All accesses of the suffix rule are in bounds: reads fall inside
the string of length `L`, writes fall inside a buffer of capacity
`cap`. -/
def normAccessOk (L cap : Nat) : Prop :=
  (∀ i ∈ normReadIdx L, 0 ≤ i ∧ i < (L : Int)) ∧
  (∀ i ∈ normWriteIdx L, 0 ≤ i ∧ i < (cap : Int))

/-! ### General list helpers -/

theorem getD_set_self {α : Type} (l : List α) (b : Nat) (x d : α)
    (h : b < l.length) : (l.set b x).getD b d = x := by
  rw [List.getD_eq_getElem?_getD, List.getElem?_set_self h]
  rfl

theorem getD_set_ne {α : Type} (l : List α) (b b' : Nat) (x d : α)
    (h : b' ≠ b) : (l.set b' x).getD b d = l.getD b d := by
  rw [List.getD_eq_getElem?_getD, List.getElem?_set_ne h,
    ← List.getD_eq_getElem?_getD]

theorem getD_replicate {α : Type} (n b : Nat) (a : α) :
    (List.replicate n a).getD b a = a := by
  induction n generalizing b with
  | zero => rfl
  | succ m ih =>
      cases b with
      | zero => rfl
      | succ b' => exact ih b'

/-! ### C9: bounds of the normalizer's index accesses -/

/-- C9: the suffix rule of the id normalizer reads `line[L-1]` and
`line[L-2]` and, in the no-mate-suffix branch, writes `line[L+1]` and
`line[L-1]`; all these accesses are in bounds exactly when the
remaining length `L` is at least 2 and `L + 1` is still inside a
buffer of capacity `cap`. -/
theorem c9_normalizer_access_bounds (L cap : Nat) :
    normAccessOk L cap ↔ (2 ≤ L ∧ L + 2 ≤ cap) := by
  simp only [normAccessOk, normReadIdx, normWriteIdx, List.mem_cons,
    List.mem_singleton, List.not_mem_nil]
  constructor
  · rintro ⟨hr, hw⟩
    have h1 := hr ((L : Int) - 2) (Or.inl rfl)
    have h2 := hw ((L : Int) + 1) (Or.inl rfl)
    omega
  · rintro ⟨h1, h2⟩
    constructor
    · rintro i (rfl | rfl | h)
      · omega
      · omega
      · cases h
    · rintro i (rfl | rfl | h)
      · omega
      · omega
      · cases h

/-! ### C1: the id-normalization rule -/

/-- C1 fails as stated: for the header `"ab.3"` the second-to-last
character is the separator `'.'` but the last character `'3'` is not a
mate marker; the claim's "otherwise" clause says the last character is
then overwritten with `'/'` (yielding `"ab./"`), while the code leaves
the string unchanged (the overwrite happens only when the
second-to-last character is not a separator). -/
theorem c1_counterexample :
    normalizeId false ("ab.3".toList) = ("ab.3".toList) ∧
      normalizeId false ("ab.3".toList) ≠ ("ab./".toList) := by
  constructor
  · decide
  · decide

/-- C1 (amended): after terminator stripping (and optional whitespace
truncation), if the second-to-last character is a separator (`/`, `_`,
`.`) then the last character is dropped when it is a mate marker
(`1`, `2`, `f`, `r`) and the line is left unchanged otherwise; only
when the second-to-last character is not a separator is the last
character overwritten with `/`.  The concrete examples hold:
`"read1/1"` and `"read1/2"` normalize to `"read1/"`, and `"read1"`
normalizes to `"read/"` (last character replaced, length unchanged). -/
theorem c1_amended_normalizer :
    (∀ s : Line, 2 ≤ s.length →
        normCore s =
          if isSep (s.getD (s.length - 2) ' ') = true then
            if isMate (s.getLastD ' ') = true then s.dropLast else s
          else s.dropLast ++ ['/']) ∧
      normalizeId false ("read1/1".toList) = ("read1/".toList) ∧
      normalizeId false ("read1/2".toList) = ("read1/".toList) ∧
      normalizeId false ("read1".toList) = ("read/".toList) := by
  refine ⟨?_, by decide, by decide, by decide⟩
  intro s hs
  have htake : s.take (s.length - 1) = s.dropLast := by
    rw [List.dropLast_eq_take]
  have hdrop : s.drop (s.length - 1 + 1) = [] :=
    List.drop_eq_nil_of_le (by omega)
  have hset : s.set (s.length - 1) '/' = s.dropLast ++ ['/'] := by
    rw [List.set_eq_take_append_cons_drop,
      if_pos (show s.length - 1 < s.length by omega), hdrop, htake]
  unfold normCore
  rw [if_pos hs, htake, hset]

/-- Closed witness for the amended C1 theorem at the concrete header
`"read1"`. -/
theorem c1_amended_normalizer_witness :
    normCore ("read1".toList) = ("read1".toList).dropLast ++ ['/'] := by
  have h := c1_amended_normalizer.1 ("read1".toList) (by decide)
  rw [h]
  decide

/-! ### C4: truncated trailing records are consumed silently -/

/-- C4 names a divergence between spec and code: the claim (with the
spec) requires a stream ending mid-record to be detected and to abort
the run, but the read loop never checks the three follow-up reads
(source lines 244-246): on a five-line left input (one complete record
followed by a lone header) the build completes normally and silently
indexes the partial record as if it were complete — no error path
exists in the loop at all. -/
theorem c4_partial_record_silently_indexed :
    buildLeftLines false false 1
        ["@A/1".toList, "ACGT".toList, "+".toList, "IIII".toList, "@B/1".toList]
      = ⟨[[⟨"@B/".toList, 4, false⟩, ⟨"@A/".toList, 0, false⟩]], 0⟩ := by
  decide

/-! ### C8: determinism and the hash function -/

theorem hashStep_lt (h : Nat) (c : Char) : hashStep h c < M32 := by
  have : 0 < M32 := by norm_num [M32]
  exact Nat.mod_lt _ this

theorem hashAux_closed (s : Line) :
    ∀ h : Nat, h < M32 → hashAux h s = (h * 31 ^ s.length + hashPoly s) % M32 := by
  induction s with
  | nil =>
      intro h hh
      simp [hashAux, hashPoly, Nat.mod_eq_of_lt hh]
  | cons c t ih =>
      intro h hh
      have hstep : hashAux h (c :: t) = hashAux (hashStep h c) t := rfl
      rw [hstep, ih _ (hashStep_lt h c)]
      have hmod : ((c.toNat + 31 * h) % M32 * 31 ^ t.length + hashPoly t) % M32
          = ((c.toNat + 31 * h) * 31 ^ t.length + hashPoly t) % M32 :=
        (((Nat.mod_modEq (c.toNat + 31 * h) M32).mul_right (31 ^ t.length)).add_right
          (hashPoly t))
      rw [hashStep, hmod]
      congr 1
      simp [hashPoly, List.length_cons, pow_succ]
      ring

/-- C8: the run is a deterministic function of the two input streams
and the configuration; the bucket is `hash mod table_size`, where
`hash` is exactly the wrapping polynomial accumulator
`h = byte + 31*h` over the canonical id's bytes (closed form: the
base-31 polynomial of the id, reduced mod 2^32). -/
theorem c8_determinism_and_hash :
    (∀ (cfg : Config) (l1 r1 l2 r2 : List FastqRecord),
        l1 = l2 → r1 = r2 → pairFiles cfg l1 r1 = pairFiles cfg l2 r2) ∧
      (∀ s : Line, hashC s = hashPoly s % M32) ∧
      (∀ (T : Nat) (k : Line), bucketOf T k = hashC k % T) := by
  refine ⟨?_, ?_, fun T k => rfl⟩
  · intro cfg l1 r1 l2 r2 h1 h2
    rw [h1, h2]
  · intro s
    have h := hashAux_closed s 0 (by norm_num [M32])
    simpa [hashC] using h

/-- Closed witness for the determinism conjunct of C8 at concrete
inputs. -/
theorem c8_determinism_and_hash_witness :
    pairFiles ⟨1, false, false, false⟩ [⟨"A/1".toList, [], [], []⟩] []
      = pairFiles ⟨1, false, false, false⟩ [⟨"A/1".toList, [], [], []⟩] [] :=
  c8_determinism_and_hash.1 ⟨1, false, false, false⟩
    [⟨"A/1".toList, [], [], []⟩] [] [⟨"A/1".toList, [], [], []⟩] [] rfl rfl

/-! ### C5: the paired counters move in lockstep -/

theorem stepRight_lp_rp (cfg : Config) (lrecs : List FastqRecord)
    (st : RunState) (r : FastqRecord) :
    (stepRight cfg lrecs st r).lp + st.rp = (stepRight cfg lrecs st r).rp + st.lp := by
  cases hd : cfg.deduplicate <;> simp only [stepRight, hd] <;>
    simp only [Bool.false_and, Bool.true_and, Bool.false_eq_true, if_false, if_true] <;>
    split <;> (try split) <;> (dsimp only) <;> omega

theorem foldl_stepRight_lp_rp (cfg : Config) (lrecs : List FastqRecord) :
    ∀ (rr : List FastqRecord) (st : RunState),
      (rr.foldl (stepRight cfg lrecs) st).lp + st.rp
        = (rr.foldl (stepRight cfg lrecs) st).rp + st.lp := by
  intro rr
  induction rr with
  | nil =>
      intro st
      simp only [List.foldl_nil]
      omega
  | cons r rest ih =>
      intro st
      have h1 := ih (stepRight cfg lrecs st r)
      have h2 := stepRight_lp_rp cfg lrecs st r
      simp only [List.foldl_cons]
      omega

/-- C5: `left_paired == right_paired` at every point of the run: a
state with equal paired counters keeps them equal after processing any
further portion of the right stream (each paired emission increments
both by one, every other branch leaves both untouched), the orphan
pass never modifies them, and the full run ends with them equal. -/
theorem c5_paired_counters_equal :
    (∀ (cfg : Config) (lrecs rr : List FastqRecord) (st : RunState),
        st.lp = st.rp →
        (rr.foldl (stepRight cfg lrecs) st).lp
          = (rr.foldl (stepRight cfg lrecs) st).rp) ∧
      (∀ (cfg : Config) (lrecs rrecs : List FastqRecord),
          (pairFiles cfg lrecs rrecs).lp = (pairFiles cfg lrecs rrecs).rp) := by
  constructor
  · intro cfg lrecs rr st hst
    have h := foldl_stepRight_lp_rp cfg lrecs rr st
    omega
  · intro cfg lrecs rrecs
    have h := foldl_stepRight_lp_rp cfg lrecs rrecs
      (initRun cfg (buildLeft cfg.deduplicate cfg.splitspace cfg.tablesize lrecs))
    simpa [pairFiles, initRun] using h

/-- Closed witness for the prefix-invariance conjunct of C5. -/
theorem c5_paired_counters_equal_witness :
    (initRun ⟨1, false, false, false⟩ (buildLeft false false 1 [])).lp
        = (initRun ⟨1, false, false, false⟩ (buildLeft false false 1 [])).rp ∧
      (([⟨"A/2".toList, [], [], []⟩].foldl
          (stepRight ⟨1, false, false, false⟩ [])
          (initRun ⟨1, false, false, false⟩ (buildLeft false false 1 []))).lp
        = ([⟨"A/2".toList, [], [], []⟩].foldl
            (stepRight ⟨1, false, false, false⟩ [])
            (initRun ⟨1, false, false, false⟩ (buildLeft false false 1 []))).rp) :=
  ⟨by decide,
   c5_paired_counters_equal.1 ⟨1, false, false, false⟩ [] [⟨"A/2".toList, [], [], []⟩]
     (initRun ⟨1, false, false, false⟩ (buildLeft false false 1 [])) (by decide)⟩

/-! ### C7: the orphan emitter -/

theorem orphan_chain_foldl (cfg : Config) (lrecs : List FastqRecord) :
    ∀ (chain : List IdLoc) (acc : List FastqRecord × Nat),
      chain.foldl (orphanStep cfg lrecs) acc
        = (acc.1 ++ (chain.filter (fun e => !e.printed)).map (emitLeftSingle cfg lrecs),
           acc.2 + (chain.filter (fun e => !e.printed)).length) := by
  intro chain
  induction chain with
  | nil => intro acc; simp
  | cons e rest ih =>
      intro acc
      rw [List.foldl_cons, ih]
      by_cases he : e.printed
      · simp [orphanStep, he, List.filter_cons]
      · simp [orphanStep, he, List.filter_cons]
        omega

theorem orphan_tbl_foldl (cfg : Config) (lrecs : List FastqRecord) :
    ∀ (tbl : List (List IdLoc)) (acc : List FastqRecord × Nat),
      tbl.foldl (fun acc chain => chain.foldl (orphanStep cfg lrecs) acc) acc
        = (acc.1 ++ ((entriesOf tbl).filter (fun e => !e.printed)).map
              (emitLeftSingle cfg lrecs),
           acc.2 + ((entriesOf tbl).filter (fun e => !e.printed)).length) := by
  intro tbl
  induction tbl with
  | nil => intro acc; simp [entriesOf]
  | cons chain rest ih =>
      intro acc
      rw [List.foldl_cons, orphan_chain_foldl, ih]
      simp only [entriesOf, List.flatten_cons, List.filter_append, List.map_append,
        List.length_append, List.append_assoc, Prod.mk.injEq]
      exact ⟨trivial, by omega⟩

/-- C7: the orphan emitter visits the buckets in ascending index order
and each chain head to tail, emits exactly one left-single record per
entry whose printed flag is false (in that traversal order), counts
each such emission, and never emits an entry whose printed flag is
true: its output and counter are exactly the map over the unprinted
entries of the table in traversal order. -/
theorem c7_orphan_emitter (cfg : Config) (lrecs : List FastqRecord)
    (tbl : List (List IdLoc)) :
    (orphanEmit cfg lrecs tbl).1
        = ((entriesOf tbl).filter (fun e => !e.printed)).map
            (emitLeftSingle cfg lrecs) ∧
      (orphanEmit cfg lrecs tbl).2
        = ((entriesOf tbl).filter (fun e => !e.printed)).length := by
  have h := orphan_tbl_foldl cfg lrecs tbl ([], 0)
  rw [orphanEmit, h]
  simp

/-! ### C2: the matcher scans the whole chain, last match wins -/

theorem scanChain_snd (k : Line) :
    ∀ (chain : List IdLoc) (p : Option Nat),
      (scanChain k chain p).2
        = chain.map (fun e => if e.id = k then { e with printed := true } else e) := by
  intro chain
  induction chain with
  | nil => intro p; rfl
  | cons e rest ih =>
      intro p
      simp only [scanChain, List.map_cons, ih]

theorem scanChain_fst (k : Line) :
    ∀ (chain : List IdLoc) (p : Option Nat),
      (scanChain k chain p).1
        = (((chain.filter (fun e => decide (e.id = k))).getLast?).map
            (fun e => some e.pos)).getD p := by
  intro chain
  induction chain with
  | nil => intro p; rfl
  | cons e rest ih =>
      intro p
      by_cases he : e.id = k
      · cases hl : (rest.filter (fun e => decide (e.id = k))).getLast? with
        | none => simp [scanChain, ih, List.filter_cons, he, List.getLast?_cons, hl]
        | some x => simp [scanChain, ih, List.filter_cons, he, List.getLast?_cons, hl]
      · simp [scanChain, ih, List.filter_cons, he]

theorem insertEntry_table_length (dedup : Bool) (T : Nat) (st : BuildState)
    (k : Line) (pos : Nat) :
    (insertEntry dedup T st k pos).table.length = st.table.length := by
  simp only [insertEntry]
  split
  · rfl
  · simp [List.length_set]

theorem buildAux_table_length (dedup split : Bool) (T : Nat) :
    ∀ (recs : List FastqRecord) (i : Nat) (st : BuildState),
      (buildAux dedup split T recs i st).table.length = st.table.length := by
  intro recs
  induction recs with
  | nil => intro i st; rfl
  | cons r rest ih =>
      intro i st
      rw [buildAux, ih, insertEntry_table_length]

theorem buildAux_filter_false (split : Bool) (T : Nat) (hT : 0 < T) (k : Line) :
    ∀ (recs : List FastqRecord) (i : Nat) (st : BuildState),
      st.table.length = T →
      ((buildAux false split T recs i st).table.getD (bucketOf T k) []).filter
          (fun e => decide (e.id = k))
        = ((keyIdx split k recs i).map (fun j => (⟨k, j, false⟩ : IdLoc))).reverse
          ++ (st.table.getD (bucketOf T k) []).filter (fun e => decide (e.id = k)) := by
  intro recs
  induction recs with
  | nil => intro i st hlen; simp [buildAux, keyIdx]
  | cons r rest ih =>
      intro i st hlen
      rw [buildAux]
      have hstep : insertEntry false T st (normalizeId split r.header) i
          = ⟨st.table.set (bucketOf T (normalizeId split r.header))
                (⟨normalizeId split r.header, i, false⟩
                  :: st.table.getD (bucketOf T (normalizeId split r.header)) []),
             st.dups⟩ := by
        simp [insertEntry]
      rw [hstep]
      have hlen' : (st.table.set (bucketOf T (normalizeId split r.header))
            (⟨normalizeId split r.header, i, false⟩
              :: st.table.getD (bucketOf T (normalizeId split r.header)) [])).length = T := by
        simp [List.length_set, hlen]
      rw [ih (i + 1) _ hlen']
      by_cases hk : normalizeId split r.header = k
      · rw [hk]
        have hb : bucketOf T k < st.table.length := by
          rw [hlen]; exact Nat.mod_lt _ hT
        rw [getD_set_self _ _ _ _ hb]
        rw [keyIdx, if_pos hk]
        simp [List.filter_cons, List.reverse_cons, List.append_assoc]
      · have hkeep : ((st.table.set (bucketOf T (normalizeId split r.header))
              (⟨normalizeId split r.header, i, false⟩
                :: st.table.getD (bucketOf T (normalizeId split r.header)) [])).getD
                (bucketOf T k) []).filter (fun e => decide (e.id = k))
            = (st.table.getD (bucketOf T k) []).filter (fun e => decide (e.id = k)) := by
          by_cases hbb : bucketOf T (normalizeId split r.header) = bucketOf T k
          · rw [hbb]
            have hb : bucketOf T k < st.table.length := by
              rw [hlen]; exact Nat.mod_lt _ hT
            rw [getD_set_self _ _ _ _ hb]
            rw [List.filter_cons]
            simp [hk]
          · rw [getD_set_ne _ _ _ _ _ hbb]
        rw [hkeep, keyIdx, if_neg hk]

theorem buildLeft_filter_false (split : Bool) (T : Nat) (hT : 0 < T)
    (recs : List FastqRecord) (k : Line) :
    ((buildLeft false split T recs).table.getD (bucketOf T k) []).filter
        (fun e => decide (e.id = k))
      = ((keyIdx split k recs 0).map (fun j => (⟨k, j, false⟩ : IdLoc))).reverse := by
  rw [buildLeft, buildAux_filter_false split T hT k recs 0 _ (by simp)]
  simp [getD_replicate]

/-- C2: the matcher's lookup walks the entire bucket chain: the
returned candidate offset is the position of the **last** entry in
head-to-tail chain order whose id equals the key (each match
overwrites the candidate), the resulting chain has the printed flag
set on exactly the matching entries (all of them), and — since the
build pass inserts at the chain head — for an index built without
deduplication the selected offset is the position of the
**earliest-inserted** record with that canonical id. -/
theorem c2_matcher_last_match :
    (∀ (k : Line) (chain : List IdLoc),
        (scanChain k chain none).1
          = ((chain.filter (fun e => decide (e.id = k))).getLast?).map IdLoc.pos ∧
        (scanChain k chain none).2
          = chain.map (fun e => if e.id = k then { e with printed := true } else e)) ∧
      (∀ (split : Bool) (T : Nat) (recs : List FastqRecord) (k : Line),
          0 < T →
          (scanChain k ((buildLeft false split T recs).table.getD (bucketOf T k) [])
              none).1
            = (keyIdx split k recs 0).head?) := by
  constructor
  · intro k chain
    refine ⟨?_, scanChain_snd k chain none⟩
    rw [scanChain_fst]
    cases (chain.filter (fun e => decide (e.id = k))).getLast? <;> rfl
  · intro split T recs k hT
    rw [scanChain_fst, buildLeft_filter_false split T hT recs k,
      List.getLast?_reverse, List.head?_map]
    cases (keyIdx split k recs 0).head? <;> rfl

/-- Closed witness for C2's earliest-inserted conjunct: two left
records with the same canonical id `"A/"`; the selected offset is the
first record's position `0`. -/
theorem c2_matcher_last_match_witness :
    (0 : Nat) < 1 ∧
      (scanChain ("A/".toList)
          ((buildLeft false false 1
              [⟨"A/1".toList, [], [], []⟩, ⟨"A/2".toList, [], [], []⟩]).table.getD
            (bucketOf 1 ("A/".toList)) []) none).1
        = (keyIdx false ("A/".toList)
            [⟨"A/1".toList, [], [], []⟩, ⟨"A/2".toList, [], [], []⟩] 0).head? :=
  ⟨by decide,
   c2_matcher_last_match.2 false 1
     [⟨"A/1".toList, [], [], []⟩, ⟨"A/2".toList, [], [], []⟩] ("A/".toList)
     (by decide)⟩

/-! ### C6: deduplicated insertion never re-inserts -/

theorem buildAux_append (dedup split : Bool) (T : Nat) :
    ∀ (xs ys : List FastqRecord) (i : Nat) (st : BuildState),
      buildAux dedup split T (xs ++ ys) i st
        = buildAux dedup split T ys (i + xs.length) (buildAux dedup split T xs i st) := by
  intro xs
  induction xs with
  | nil => intro ys i st; simp [buildAux]
  | cons x rest ih =>
      intro ys i st
      rw [show (x :: rest) ++ ys = x :: (rest ++ ys) from rfl]
      rw [show buildAux dedup split T (x :: (rest ++ ys)) i st
            = buildAux dedup split T (rest ++ ys) (i + 1)
                (insertEntry dedup T st (normalizeId split x.header) i) from rfl]
      rw [show buildAux dedup split T (x :: rest) i st
            = buildAux dedup split T rest (i + 1)
                (insertEntry dedup T st (normalizeId split x.header) i) from rfl]
      rw [ih, List.length_cons]
      have harith : i + 1 + rest.length = i + (rest.length + 1) := by omega
      rw [harith]

/-- C6: with duplicate tracking enabled, a left record whose canonical
id already has an exact-string match in its bucket's chain is not
inserted: the table is left exactly as it was (the first-seen entry
untouched) and only the left-duplicate counter is incremented.
Concretely, building from two records with id `"A/1"` (canonical key
`"A/"`) yields one retained entry and `left_duplicates = 1`. -/
theorem c6_dedup_no_reinsert :
    (∀ (split : Bool) (T : Nat) (recs : List FastqRecord) (r : FastqRecord),
        chainHasId
            ((buildLeft true split T recs).table.getD
              (bucketOf T (normalizeId split r.header)) [])
            (normalizeId split r.header) = true →
        buildLeft true split T (recs ++ [r])
          = ⟨(buildLeft true split T recs).table,
             (buildLeft true split T recs).dups + 1⟩) ∧
      buildLeft true false 1
          [⟨"A/1".toList, [], [], []⟩, ⟨"A/1".toList, [], [], []⟩]
        = ⟨[[⟨"A/".toList, 0, false⟩]], 1⟩ := by
  constructor
  · intro split T recs r hmem
    rw [buildLeft, buildAux_append true split T recs [r] 0 _]
    rw [← buildLeft]
    simp only [buildAux, insertEntry, Bool.true_and]
    rw [if_pos hmem]
  · decide

/-- Closed witness for C6's general conjunct: the second `"A/1"`
record hits the existing `"A/"` entry. -/
theorem c6_dedup_no_reinsert_witness :
    chainHasId
        ((buildLeft true false 1 [⟨"A/1".toList, [], [], []⟩]).table.getD
          (bucketOf 1 (normalizeId false ("A/1".toList))) [])
        (normalizeId false ("A/1".toList)) = true ∧
      buildLeft true false 1 ([⟨"A/1".toList, [], [], []⟩] ++ [⟨"A/1".toList, [], [], []⟩])
        = ⟨(buildLeft true false 1 [⟨"A/1".toList, [], [], []⟩]).table,
           (buildLeft true false 1 [⟨"A/1".toList, [], [], []⟩]).dups + 1⟩ :=
  ⟨by decide,
   c6_dedup_no_reinsert.1 false 1 [⟨"A/1".toList, [], [], []⟩]
     ⟨"A/1".toList, [], [], []⟩ (by decide)⟩


theorem lookupPos_buildLeft_false (split : Bool) (T : Nat) (hT : 0 < T)
    (recs : List FastqRecord) (k : Line) :
    lookupPos T (buildLeft false split T recs).table k = (keyIdx split k recs 0).head? := by
  rw [lookupPos, scanChain_fst, buildLeft_filter_false split T hT recs k,
    List.getLast?_reverse, List.head?_map]
  cases (keyIdx split k recs 0).head? <;> rfl

theorem keyIdx_nil_of_not_mem (split : Bool) (k : Line) :
    ∀ (recs : List FastqRecord) (n : Nat),
      k ∉ recs.map (fun r => normalizeId split r.header) →
      keyIdx split k recs n = [] := by
  intro recs
  induction recs with
  | nil => intro n _; rfl
  | cons r rest ih =>
      intro n hmem
      rw [keyIdx, if_neg, ih (n + 1)]
      · intro hc
        exact hmem (by simp [hc])
      · intro hc
        exact hmem (by simp [hc])

theorem keyIdx_of_nodup (split : Bool) (k : Line) :
    ∀ (recs : List FastqRecord) (n i : Nat) (hi : i < recs.length),
      ((recs.map (fun r => normalizeId split r.header)).Nodup) →
      normalizeId split (recs.get ⟨i, hi⟩).header = k →
      keyIdx split k recs n = [n + i] := by
  intro recs
  induction recs with
  | nil => intro n i hi _ _; cases hi
  | cons r rest ih =>
      intro n i hi hnd hk
      have hnd' := hnd
      rw [List.map_cons, List.nodup_cons] at hnd'
      cases i with
      | zero =>
          have hr : normalizeId split r.header = k := hk
          rw [keyIdx, if_pos hr]
          have hrest : keyIdx split k rest (n + 1) = [] := by
            apply keyIdx_nil_of_not_mem
            rw [← hr]
            exact hnd'.1
          rw [hrest]
          simp
      | succ i' =>
          have hi' : i' < rest.length := by
            simpa [List.length_cons] using hi
          have hkr : normalizeId split (rest.get ⟨i', hi'⟩).header = k := hk
          have hne : normalizeId split r.header ≠ k := by
            intro hc
            apply hnd'.1
            rw [hc, ← hkr]
            exact List.mem_map_of_mem _ (List.get_mem rest i' hi')
          rw [keyIdx, if_neg hne, ih (n + 1) i' hi' hnd'.2 hkr]
          congr 1
          omega


theorem markIf_id (k : Line) (e : IdLoc) :
    (if e.id = k then ({ e with printed := true } : IdLoc) else e).id = e.id := by
  split <;> rfl

theorem markIf_pos (k : Line) (e : IdLoc) :
    (if e.id = k then ({ e with printed := true } : IdLoc) else e).pos = e.pos := by
  split <;> rfl

theorem scanChain_fst_snd (k k' : Line) (chain : List IdLoc) :
    (scanChain k' (scanChain k chain none).2 none).1 = (scanChain k' chain none).1 := by
  rw [scanChain_fst, scanChain_fst, scanChain_snd]
  rw [List.filter_map]
  have hpred : ((fun e : IdLoc => decide (e.id = k')) ∘
      (fun e : IdLoc => if e.id = k then { e with printed := true } else e))
      = fun e : IdLoc => decide (e.id = k') := by
    funext e
    simp only [Function.comp_apply, markIf_id]
  rw [hpred, List.getLast?_map]
  cases hl : (chain.filter (fun e => decide (e.id = k'))).getLast? with
  | none => rfl
  | some x => simp [markIf_pos]

theorem lookupPos_set_scan (T : Nat) (tbl : List (List IdLoc)) (k k' : Line) :
    lookupPos T
        (tbl.set (bucketOf T k) (scanChain k (tbl.getD (bucketOf T k) []) none).2) k'
      = lookupPos T tbl k' := by
  by_cases hb : bucketOf T k = bucketOf T k'
  · by_cases hlt : bucketOf T k < tbl.length
    · rw [lookupPos, hb, getD_set_self _ _ _ _ (by omega : bucketOf T k' < tbl.length)]
      rw [← hb, scanChain_fst_snd]
      rw [lookupPos, ← hb]
    · rw [List.set_eq_of_length_le (by omega)]
  · rw [lookupPos, getD_set_ne _ _ _ _ _ hb, ← lookupPos]


theorem stepRight_nodedup (cfg : Config) (hd : cfg.deduplicate = false)
    (lrecs : List FastqRecord) (st : RunState) (r : FastqRecord) :
    (stepRight cfg lrecs st r).ltable
        = st.ltable.set (bucketOf cfg.tablesize (normalizeId cfg.splitspace r.header))
            (scanChain (normalizeId cfg.splitspace r.header)
              (st.ltable.getD
                (bucketOf cfg.tablesize (normalizeId cfg.splitspace r.header)) [])
              none).2 ∧
      (stepRight cfg lrecs st r).outLP
        = st.outLP
          ++ ((lookupPos cfg.tablesize st.ltable
                (normalizeId cfg.splitspace r.header)).map
              (fun p =>
                emitLeftPaired cfg lrecs (normalizeId cfg.splitspace r.header) p)).toList ∧
      (stepRight cfg lrecs st r).outRP
        = st.outRP
          ++ (if (lookupPos cfg.tablesize st.ltable
                  (normalizeId cfg.splitspace r.header)).isSome
              then [rewriteRight cfg (normalizeId cfg.splitspace r.header) r]
              else []) := by
  cases hp : (scanChain (normalizeId cfg.splitspace r.header)
      (st.ltable.getD (bucketOf cfg.tablesize (normalizeId cfg.splitspace r.header)) [])
      none).1 with
  | none =>
      simp only [List.getD_eq_getElem?_getD] at hp
      simp [stepRight, hd, lookupPos, hp]
  | some p =>
      simp only [List.getD_eq_getElem?_getD] at hp
      simp [stepRight, hd, lookupPos, hp]


theorem foldl_nodedup_out (cfg : Config) (hd : cfg.deduplicate = false)
    (lrecs : List FastqRecord) :
    ∀ (rr : List FastqRecord) (st : RunState),
      (∀ k, lookupPos cfg.tablesize (rr.foldl (stepRight cfg lrecs) st).ltable k
          = lookupPos cfg.tablesize st.ltable k) ∧
      (rr.foldl (stepRight cfg lrecs) st).outLP
        = st.outLP ++ rr.filterMap (fun r =>
            (lookupPos cfg.tablesize st.ltable (normalizeId cfg.splitspace r.header)).map
              (fun p => emitLeftPaired cfg lrecs (normalizeId cfg.splitspace r.header) p)) ∧
      (rr.foldl (stepRight cfg lrecs) st).outRP
        = st.outRP ++ (rr.filter (fun r =>
            (lookupPos cfg.tablesize st.ltable
              (normalizeId cfg.splitspace r.header)).isSome)).map
            (fun r => rewriteRight cfg (normalizeId cfg.splitspace r.header) r) := by
  intro rr
  induction rr with
  | nil => intro st; simp
  | cons r rest ih =>
      intro st
      obtain ⟨hlt, hlp, hrp⟩ := stepRight_nodedup cfg hd lrecs st r
      obtain ⟨ihl, ihLP, ihRP⟩ := ih (stepRight cfg lrecs st r)
      have hpresk : ∀ k, lookupPos cfg.tablesize (stepRight cfg lrecs st r).ltable k
          = lookupPos cfg.tablesize st.ltable k := by
        intro k
        rw [hlt, lookupPos_set_scan]
      refine ⟨?_, ?_, ?_⟩
      · intro k
        rw [List.foldl_cons, ihl k, hpresk k]
      · rw [List.foldl_cons, ihLP]
        have hfm : rest.filterMap (fun x =>
              (lookupPos cfg.tablesize (stepRight cfg lrecs st r).ltable
                (normalizeId cfg.splitspace x.header)).map
                (fun p => emitLeftPaired cfg lrecs (normalizeId cfg.splitspace x.header) p))
            = rest.filterMap (fun x =>
              (lookupPos cfg.tablesize st.ltable
                (normalizeId cfg.splitspace x.header)).map
                (fun p => emitLeftPaired cfg lrecs (normalizeId cfg.splitspace x.header) p)) := by
          apply List.filterMap_congr
          intro x _
          rw [hpresk]
        rw [hfm, hlp, List.filterMap_cons]
        cases hp : lookupPos cfg.tablesize st.ltable (normalizeId cfg.splitspace r.header) with
        | none => simp [hp]
        | some p => simp [hp]
      · rw [List.foldl_cons, ihRP]
        have hfl : rest.filter (fun x =>
              (lookupPos cfg.tablesize (stepRight cfg lrecs st r).ltable
                (normalizeId cfg.splitspace x.header)).isSome)
            = rest.filter (fun x =>
              (lookupPos cfg.tablesize st.ltable
                (normalizeId cfg.splitspace x.header)).isSome) := by
          apply List.filter_congr
          intro x _
          rw [hpresk]
        rw [hfl, hrp, List.filter_cons]
        cases hp : lookupPos cfg.tablesize st.ltable (normalizeId cfg.splitspace r.header) with
        | none => simp [hp]
        | some p => simp [hp]


theorem countP_canon_eq_one {A B : Type} [BEq B] [LawfulBEq B] (f : A → B) :
    ∀ (l : List A) (b : B), (l.map f).Nodup → b ∈ l.map f →
      l.countP (fun x => f x == b) = 1 := by
  intro l
  induction l with
  | nil =>
      intro b _ hb
      cases hb
  | cons x rest ih =>
      intro b hnd hb
      rw [List.map_cons, List.nodup_cons] at hnd
      rw [List.map_cons] at hb
      rw [List.countP_cons]
      by_cases hx : f x = b
      · have h0 : rest.countP (fun y => f y == b) = 0 := by
          rw [List.countP_eq_zero]
          intro y hy
          simp only [beq_iff_eq]
          intro hc
          exact hnd.1 (by rw [hx, ← hc]; exact List.mem_map_of_mem f hy)
        simp [h0, hx]
      · have hb2 : b ∈ rest.map f := by
          cases hb with
          | head => exact absurd rfl hx
          | tail _ h => exact h
        have hx2 : (f x == b) = false := by
          simp [hx]
        rw [ih b hnd.2 hb2, hx2]
        simp

theorem c3_paired_exactly_once
    (T : Nat) (split : Bool) (lrecs rrecs : List FastqRecord)
    (hT : 0 < T)
    (hL : (lrecs.map (fun r => normalizeId split r.header)).Nodup)
    (hR : (rrecs.map (fun r => normalizeId split r.header)).Nodup)
    (i : Nat) (hi : i < lrecs.length)
    (hocc : normalizeId split (lrecs.get ⟨i, hi⟩).header
        ∈ rrecs.map (fun r => normalizeId split r.header)) :
    (pairFiles ⟨T, false, split, false⟩ lrecs rrecs).outLP.count (lrecs.get ⟨i, hi⟩) = 1
    ∧ ∀ (j : Nat) (hj : j < rrecs.length),
        normalizeId split (rrecs.get ⟨j, hj⟩).header
            = normalizeId split (lrecs.get ⟨i, hi⟩).header →
        (pairFiles ⟨T, false, split, false⟩ lrecs rrecs).outRP.count (rrecs.get ⟨j, hj⟩) = 1 := by
  have hcfgd : (⟨T, false, split, false⟩ : Config).deduplicate = false := rfl
  obtain ⟨hlook, houtLP, houtRP⟩ :=
    foldl_nodedup_out ⟨T, false, split, false⟩ hcfgd lrecs rrecs
      (initRun ⟨T, false, split, false⟩ (buildLeft false split T lrecs))
  dsimp only [initRun] at houtLP houtRP
  simp only [List.nil_append] at houtLP houtRP
  have hemit : ∀ (k' : Line) (p : Nat),
      emitLeftPaired ⟨T, false, split, false⟩ lrecs k' p = lrecs.getD p emptyRec := by
    intro k' p
    simp [emitLeftPaired]
  have hrwR : ∀ (k' : Line) (r : FastqRecord),
      rewriteRight ⟨T, false, split, false⟩ k' r = r := by
    intro k' r
    simp [rewriteRight]
  have hlk : ∀ k : Line,
      lookupPos T (buildLeft false split T lrecs).table k
        = (keyIdx split k lrecs 0).head? :=
    fun k => lookupPos_buildLeft_false split T hT lrecs k
  have hky : keyIdx split (normalizeId split (lrecs.get ⟨i, hi⟩).header) lrecs 0 = [i] := by
    simpa using keyIdx_of_nodup split _ lrecs 0 i hi hL rfl
  have hlooki : lookupPos T (buildLeft false split T lrecs).table
      (normalizeId split (lrecs.get ⟨i, hi⟩).header) = some i := by
    rw [hlk, hky]
    rfl
  constructor
  · have hfin : (pairFiles ⟨T, false, split, false⟩ lrecs rrecs).outLP
        = (rrecs.foldl (stepRight ⟨T, false, split, false⟩ lrecs)
            (initRun ⟨T, false, split, false⟩ (buildLeft false split T lrecs))).outLP := rfl
    rw [hfin]
    dsimp only [initRun]
    rw [houtLP, List.count_filterMap]
    have hcong : ∀ r ∈ rrecs,
        ((Option.map (fun p => emitLeftPaired ⟨T, false, split, false⟩ lrecs
              (normalizeId split r.header) p)
            (lookupPos T (buildLeft false split T lrecs).table
              (normalizeId split r.header)))
          == some (lrecs.get ⟨i, hi⟩)) = true
        ↔ (normalizeId split r.header
            == normalizeId split (lrecs.get ⟨i, hi⟩).header) = true := by
      intro r _
      simp only [beq_iff_eq]
      constructor
      · intro heq
        cases hp : lookupPos T (buildLeft false split T lrecs).table
            (normalizeId split r.header) with
        | none =>
            rw [hp] at heq
            simp at heq
        | some q =>
            rw [hp] at heq
            simp only [hemit] at heq
            simp at heq
            have hne : keyIdx split (normalizeId split r.header) lrecs 0 ≠ [] := by
              intro hnil
              rw [hlk, hnil] at hp
              cases hp
            have hmem : normalizeId split r.header
                ∈ lrecs.map (fun r => normalizeId split r.header) := by
              by_contra hno
              exact hne (keyIdx_nil_of_not_mem split _ lrecs 0 hno)
            obtain ⟨a, ha, hca⟩ := List.mem_map.mp hmem
            obtain ⟨⟨i', hi'⟩, hget⟩ := List.mem_iff_get.mp ha
            have hky' : keyIdx split (normalizeId split r.header) lrecs 0 = [i'] := by
              simpa using keyIdx_of_nodup split _ lrecs 0 i' hi' hL
                (by rw [hget]; exact hca)
            have hq : q = i' := by
              rw [hlk, hky'] at hp
              simpa using hp.symm
            rw [hq] at heq
            rw [List.getElem?_eq_getElem hi'] at heq
            have hgg : lrecs[i'] = lrecs[i] := by
              simpa using heq
            calc normalizeId split r.header
                = normalizeId split a.header := hca.symm
              _ = normalizeId split (lrecs.get ⟨i', hi'⟩).header := by rw [hget]
              _ = normalizeId split (lrecs.get ⟨i, hi⟩).header := by
                  show normalizeId split lrecs[i'].header
                      = normalizeId split lrecs[i].header
                  rw [hgg]
      · intro heq
        rw [heq, hlooki]
        simp [hemit, List.getElem?_eq_getElem hi]
    rw [List.countP_congr hcong]
    exact countP_canon_eq_one (fun r => normalizeId split r.header) rrecs
      (normalizeId split (lrecs.get ⟨i, hi⟩).header) hR hocc
  · intro j hj hkj
    have hfin : (pairFiles ⟨T, false, split, false⟩ lrecs rrecs).outRP
        = (rrecs.foldl (stepRight ⟨T, false, split, false⟩ lrecs)
            (initRun ⟨T, false, split, false⟩ (buildLeft false split T lrecs))).outRP := rfl
    rw [hfin]
    dsimp only [initRun]
    rw [houtRP]
    have hfunid : (fun r : FastqRecord => rewriteRight ⟨T, false, split, false⟩
        (normalizeId split r.header) r) = fun r => r := by
      funext r
      exact hrwR _ r
    rw [hfunid, List.map_id']
    have hsel : (lookupPos T (buildLeft false split T lrecs).table
        (normalizeId split (rrecs.get ⟨j, hj⟩).header)).isSome = true := by
      rw [hkj, hlooki]
      rfl
    rw [@List.count_filter FastqRecord _ _
      (fun r => (lookupPos T (buildLeft false split T lrecs).table
        (normalizeId split r.header)).isSome)
      (rrecs.get ⟨j, hj⟩) rrecs hsel]
    exact List.count_eq_one_of_mem (hR.of_map _) (List.get_mem rrecs j hj)


/-- Closed witness for C3 at a one-record-per-stream instance. -/
theorem c3_paired_exactly_once_witness :
    (0 : Nat) < 1 ∧
      (([⟨"A/1".toList, [], [], []⟩] : List FastqRecord).map
          (fun r => normalizeId false r.header)).Nodup ∧
      (([⟨"A/2".toList, [], [], []⟩] : List FastqRecord).map
          (fun r => normalizeId false r.header)).Nodup ∧
      normalizeId false (([⟨"A/1".toList, [], [], []⟩] : List FastqRecord).get
          ⟨0, by decide⟩).header
        ∈ ([⟨"A/2".toList, [], [], []⟩] : List FastqRecord).map
            (fun r => normalizeId false r.header) ∧
      (pairFiles ⟨1, false, false, false⟩ [⟨"A/1".toList, [], [], []⟩]
          [⟨"A/2".toList, [], [], []⟩]).outLP.count
        (([⟨"A/1".toList, [], [], []⟩] : List FastqRecord).get ⟨0, by decide⟩) = 1 :=
  ⟨by decide, by decide, by decide, by decide,
   (c3_paired_exactly_once 1 false [⟨"A/1".toList, [], [], []⟩]
      [⟨"A/2".toList, [], [], []⟩] (by decide) (by decide) (by decide) 0
      (by decide) (by decide)).1⟩


/-! ### C10: counter accounting with deduplication -/

/-- Is `k` present (by exact string match) in its bucket of `tbl`?
Models the duplicate check of the right-stream loop (source lines
398-412). -/
def inTable (T : Nat) (tbl : List (List IdLoc)) (k : Line) : Bool :=
  chainHasId (tbl.getD (bucketOf T k) []) k

theorem nEntries_eq_sum (tbl : List (List IdLoc)) :
    nEntries tbl = (tbl.map List.length).sum := by
  induction tbl with
  | nil => rfl
  | cons c rest ih =>
      simp only [nEntries, entriesOf, List.flatten_cons, List.length_append,
        List.map_cons, List.sum_cons]
      simp only [nEntries, entriesOf] at ih
      omega

theorem nPrinted_eq_sum (tbl : List (List IdLoc)) :
    nPrinted tbl = (tbl.map (fun c => (c.filter (fun e => e.printed)).length)).sum := by
  induction tbl with
  | nil => rfl
  | cons c rest ih =>
      simp only [nPrinted, entriesOf, List.flatten_cons, List.filter_append,
        List.length_append, List.map_cons, List.sum_cons]
      simp only [nPrinted, entriesOf] at ih
      omega

theorem sum_map_set (f : List IdLoc → Nat) :
    ∀ (l : List (List IdLoc)) (b : Nat) (x : List IdLoc), b < l.length →
      ((l.set b x).map f).sum + f (l.getD b []) = (l.map f).sum + f x := by
  intro l
  induction l with
  | nil =>
      intro b x h
      exact absurd h (Nat.not_lt_zero b)
  | cons c rest ih =>
      intro b x h
      cases b with
      | zero =>
          simp only [List.set, List.map_cons, List.sum_cons, List.getD_cons_zero]
          omega
      | succ b' =>
          simp only [List.set, List.map_cons, List.sum_cons, List.getD_cons_succ]
          have := ih b' x (by simpa using h)
          omega

theorem filter_split_length {α : Type} (p : α → Bool) :
    ∀ l : List α, (l.filter p).length + (l.filter (fun a => !p a)).length = l.length := by
  intro l
  induction l with
  | nil => rfl
  | cons a rest ih =>
      by_cases ha : p a
      · simp [List.filter_cons, ha]
        omega
      · simp [List.filter_cons, ha]
        omega

theorem printedLen_mark (k : Line) :
    ∀ chain : List IdLoc,
      ((chain.map (fun e => if e.id = k then { e with printed := true } else e)).filter
          (fun e => e.printed)).length
        = (chain.filter (fun e => e.printed)).length
          + ((chain.filter (fun e => decide (e.id = k))).filter
              (fun e => !e.printed)).length := by
  intro chain
  induction chain with
  | nil => rfl
  | cons e rest ih =>
      by_cases he : e.id = k
      · by_cases hp : e.printed
        · simp [List.filter_cons, he, hp, ih]
          omega
        · simp [List.filter_cons, he, hp, ih]
          omega
      · by_cases hp : e.printed
        · simp [List.filter_cons, he, hp, ih]
          omega
        · simp [List.filter_cons, he, hp, ih]

theorem filter_id_eq_nil (k : Line) (chain : List IdLoc)
    (h : ∀ e ∈ chain, e.id ≠ k) :
    chain.filter (fun e => decide (e.id = k)) = [] := by
  rw [List.filter_eq_nil_iff]
  intro e he
  simp [h e he]

theorem filter_id_len_le_one (k : Line) :
    ∀ chain : List IdLoc, ((chain.map IdLoc.id).Nodup) →
      (chain.filter (fun e => decide (e.id = k))).length ≤ 1 := by
  intro chain
  induction chain with
  | nil => intro _; simp
  | cons e rest ih =>
      intro hnd
      rw [List.map_cons, List.nodup_cons] at hnd
      rw [List.filter_cons]
      by_cases he : e.id = k
      · have h0 : rest.filter (fun e => decide (e.id = k)) = [] := by
          apply filter_id_eq_nil
          intro e' he' hc
          exact hnd.1 (by rw [he, ← hc]; exact List.mem_map_of_mem _ he')
        simp [he, h0]
      · rw [if_neg (by simp [he])]
        exact ih hnd.2

theorem inTable_mono (T : Nat) (tbl : List (List IdLoc)) (b : Nat) (x : IdLoc)
    (k' : Line) (h : inTable T tbl k' = true) :
    inTable T (tbl.set b (x :: tbl.getD b [])) k' = true := by
  by_cases hb : bucketOf T k' = b
  · by_cases hlt : b < tbl.length
    · rw [inTable, hb, getD_set_self _ _ _ _ hlt]
      rw [inTable, hb] at h
      simp only [chainHasId, List.any_cons] at h ⊢
      rw [h]
      simp
    · rw [List.set_eq_of_length_le (by omega)]
      exact h
  · rw [inTable, getD_set_ne _ _ _ _ _ (by omega : b ≠ bucketOf T k')]
    exact h

theorem mark_map_id (k : Line) (chain : List IdLoc) :
    ((chain.map (fun e => if e.id = k then { e with printed := true } else e)).map
        IdLoc.id) = chain.map IdLoc.id := by
  rw [List.map_map]
  apply List.map_congr_left
  intro e _
  simp only [Function.comp_apply]
  exact markIf_id k e

theorem unprinted_of_nPrinted_zero (tbl : List (List IdLoc))
    (h : nPrinted tbl = 0) :
    ∀ b : Nat, ∀ e ∈ tbl.getD b [], e.printed = false := by
  intro b e he
  by_cases hb : b < tbl.length
  · have hmem : e ∈ entriesOf tbl := by
      rw [entriesOf, List.mem_flatten]
      refine ⟨tbl.getD b [], ?_, he⟩
      rw [List.getD_eq_getElem _ _ hb]
      exact List.getElem_mem hb
    rw [nPrinted, List.length_eq_zero, List.filter_eq_nil_iff] at h
    by_contra hc
    exact h e hmem (by simpa using hc)
  · rw [List.getD_eq_default _ _ (by omega)] at he
    cases he


theorem nPrinted_set_general (tbl : List (List IdLoc)) (b : Nat)
    (c : List IdLoc) (hb : b < tbl.length) :
    nPrinted (tbl.set b c) + ((tbl.getD b []).filter (fun e => e.printed)).length
      = nPrinted tbl + (c.filter (fun e => e.printed)).length := by
  rw [nPrinted_eq_sum, nPrinted_eq_sum]
  exact sum_map_set _ tbl b c hb

theorem nEntries_set_general (tbl : List (List IdLoc)) (b : Nat)
    (c : List IdLoc) (hb : b < tbl.length) :
    nEntries (tbl.set b c) + (tbl.getD b []).length = nEntries tbl + c.length := by
  rw [nEntries_eq_sum, nEntries_eq_sum]
  exact sum_map_set _ tbl b c hb

theorem chainHasId_false_not_mem (chain : List IdLoc) (k : Line)
    (h : chainHasId chain k = false) : k ∉ chain.map IdLoc.id := by
  intro hmem
  obtain ⟨e, he, hid⟩ := List.mem_map.mp hmem
  have : chainHasId chain k = true := by
    rw [chainHasId, List.any_eq_true]
    exact ⟨e, he, by simp [hid]⟩
  rw [this] at h
  cases h

theorem buildAux_inv (split : Bool) (T : Nat) (hT : 0 < T) :
    ∀ (recs : List FastqRecord) (i : Nat) (st : BuildState),
      st.table.length = T →
      (∀ b : Nat, ((st.table.getD b []).map IdLoc.id).Nodup) →
      nPrinted st.table = 0 →
      (buildAux true split T recs i st).table.length = T ∧
      (∀ b : Nat,
        (((buildAux true split T recs i st).table.getD b []).map IdLoc.id).Nodup) ∧
      nPrinted (buildAux true split T recs i st).table = 0 ∧
      nEntries (buildAux true split T recs i st).table
          + (buildAux true split T recs i st).dups
        = nEntries st.table + st.dups + recs.length := by
  intro recs
  induction recs with
  | nil =>
      intro i st h1 h2 h3
      exact ⟨h1, h2, h3, by simp [buildAux]⟩
  | cons r rest ih =>
      intro i st h1 h2 h3
      simp only [buildAux]
      by_cases hhit : chainHasId
          (st.table.getD (bucketOf T (normalizeId split r.header)) [])
          (normalizeId split r.header) = true
      · have hstep : insertEntry true T st (normalizeId split r.header) i
            = ⟨st.table, st.dups + 1⟩ := by
          simp only [insertEntry, Bool.true_and]
          rw [if_pos (show chainHasId
            (st.table.getD (bucketOf T (normalizeId split r.header)) [])
            (normalizeId split r.header) = true from hhit)]
        rw [hstep]
        obtain ⟨a1, a2, a3, a4⟩ := ih (i + 1) ⟨st.table, st.dups + 1⟩ h1 h2 h3
        refine ⟨a1, a2, a3, ?_⟩
        simp only [List.length_cons]
        simp only at a4
        omega
      · have hmiss : chainHasId
            (st.table.getD (bucketOf T (normalizeId split r.header)) [])
            (normalizeId split r.header) = false := by
          simpa using hhit
        have hb : bucketOf T (normalizeId split r.header) < st.table.length := by
          rw [h1]
          exact Nat.mod_lt _ hT
        have hstep : insertEntry true T st (normalizeId split r.header) i
            = ⟨st.table.set (bucketOf T (normalizeId split r.header))
                  (⟨normalizeId split r.header, i, false⟩
                    :: st.table.getD (bucketOf T (normalizeId split r.header)) []),
               st.dups⟩ := by
          simp only [insertEntry, Bool.true_and]
          rw [if_neg (show ¬chainHasId
            (st.table.getD (bucketOf T (normalizeId split r.header)) [])
            (normalizeId split r.header) = true from by rw [hmiss]; simp)]
        rw [hstep]
        have h1' : (st.table.set (bucketOf T (normalizeId split r.header))
              (⟨normalizeId split r.header, i, false⟩
                :: st.table.getD (bucketOf T (normalizeId split r.header)) [])).length
            = T := by
          rw [List.length_set, h1]
        have h2' : ∀ b : Nat,
            (((st.table.set (bucketOf T (normalizeId split r.header))
                (⟨normalizeId split r.header, i, false⟩
                  :: st.table.getD (bucketOf T (normalizeId split r.header)) [])).getD
                b []).map IdLoc.id).Nodup := by
          intro b
          by_cases hbb : b = bucketOf T (normalizeId split r.header)
          · rw [hbb, getD_set_self _ _ _ _ hb, List.map_cons, List.nodup_cons]
            exact ⟨chainHasId_false_not_mem _ _ hmiss,
              h2 (bucketOf T (normalizeId split r.header))⟩
          · rw [getD_set_ne _ _ _ _ _ (by omega : bucketOf T (normalizeId split r.header) ≠ b)]
            exact h2 b
        have h3' : nPrinted (st.table.set (bucketOf T (normalizeId split r.header))
              (⟨normalizeId split r.header, i, false⟩
                :: st.table.getD (bucketOf T (normalizeId split r.header)) [])) = 0 := by
          have hs := nPrinted_set_general st.table
            (bucketOf T (normalizeId split r.header))
            (⟨normalizeId split r.header, i, false⟩
              :: st.table.getD (bucketOf T (normalizeId split r.header)) []) hb
          rw [List.filter_cons] at hs
          simp only [show ((⟨normalizeId split r.header, i, false⟩ : IdLoc).printed = true)
              = False by simp] at hs
          simp only [if_false] at hs
          omega
        have h4' : nEntries (st.table.set (bucketOf T (normalizeId split r.header))
              (⟨normalizeId split r.header, i, false⟩
                :: st.table.getD (bucketOf T (normalizeId split r.header)) []))
            = nEntries st.table + 1 := by
          have hs := nEntries_set_general st.table
            (bucketOf T (normalizeId split r.header))
            (⟨normalizeId split r.header, i, false⟩
              :: st.table.getD (bucketOf T (normalizeId split r.header)) []) hb
          rw [List.length_cons] at hs
          omega
        obtain ⟨a1, a2, a3, a4⟩ := ih (i + 1)
          ⟨st.table.set (bucketOf T (normalizeId split r.header))
              (⟨normalizeId split r.header, i, false⟩
                :: st.table.getD (bucketOf T (normalizeId split r.header)) []),
            st.dups⟩ h1' h2' h3'
        refine ⟨a1, a2, a3, ?_⟩
        simp only at a4
        rw [h4'] at a4
        simp only [List.length_cons]
        omega

theorem sum_map_replicate_nil (f : List IdLoc → Nat) (h : f [] = 0) :
    ∀ n : Nat, ((List.replicate n ([] : List IdLoc)).map f).sum = 0 := by
  intro n
  induction n with
  | zero => rfl
  | succ m ih => simp [List.replicate, h, ih]

theorem buildLeft_inv (split : Bool) (T : Nat) (hT : 0 < T)
    (recs : List FastqRecord) :
    (buildLeft true split T recs).table.length = T ∧
    (∀ b : Nat, (((buildLeft true split T recs).table.getD b []).map IdLoc.id).Nodup) ∧
    nPrinted (buildLeft true split T recs).table = 0 ∧
    nEntries (buildLeft true split T recs).table + (buildLeft true split T recs).dups
      = recs.length := by
  have hrep : ∀ b : Nat, (List.replicate T ([] : List IdLoc)).getD b [] = [] :=
    fun b => getD_replicate T b []
  have h0 : nPrinted (List.replicate T ([] : List IdLoc)) = 0 := by
    rw [nPrinted_eq_sum]
    exact sum_map_replicate_nil _ rfl T
  have h0e : nEntries (List.replicate T ([] : List IdLoc)) = 0 := by
    rw [nEntries_eq_sum]
    exact sum_map_replicate_nil _ rfl T
  obtain ⟨a1, a2, a3, a4⟩ := buildAux_inv split T hT recs 0 ⟨List.replicate T [], 0⟩
    (by simp) (fun b => by rw [hrep b]; exact List.nodup_nil) h0
  refine ⟨a1, a2, a3, ?_⟩
  simp only at a4
  rw [h0e] at a4
  simpa using a4


theorem nodup_set_mark (T : Nat) (tbl : List (List IdLoc)) (k : Line)
    (hnd : ∀ b : Nat, ((tbl.getD b []).map IdLoc.id).Nodup) :
    ∀ b : Nat, (((tbl.set (bucketOf T k)
        (scanChain k (tbl.getD (bucketOf T k) []) none).2).getD b []).map
          IdLoc.id).Nodup := by
  intro b
  by_cases hbb : b = bucketOf T k
  · by_cases hlt : bucketOf T k < tbl.length
    · rw [hbb, getD_set_self _ _ _ _ hlt, scanChain_snd, mark_map_id]
      exact hnd _
    · rw [List.set_eq_of_length_le (by omega)]
      exact hnd b
  · rw [getD_set_ne _ _ _ _ _ (by omega)]
    exact hnd b

theorem nEntries_set_mark (T : Nat) (tbl : List (List IdLoc)) (k : Line)
    (hlt : bucketOf T k < tbl.length) :
    nEntries (tbl.set (bucketOf T k)
        (scanChain k (tbl.getD (bucketOf T k) []) none).2) = nEntries tbl := by
  have hs := nEntries_set_general tbl (bucketOf T k)
    (scanChain k (tbl.getD (bucketOf T k) []) none).2 hlt
  have hlenc : ((scanChain k (tbl.getD (bucketOf T k) []) none).2).length
      = (tbl.getD (bucketOf T k) []).length := by
    rw [scanChain_snd]
    exact List.length_map _ _
  omega

theorem nPrinted_set_mark (T : Nat) (tbl : List (List IdLoc)) (k : Line)
    (hlt : bucketOf T k < tbl.length) :
    nPrinted (tbl.set (bucketOf T k)
        (scanChain k (tbl.getD (bucketOf T k) []) none).2)
      = nPrinted tbl
        + (((tbl.getD (bucketOf T k) []).filter (fun e => decide (e.id = k))).filter
            (fun e => !e.printed)).length := by
  have hs := nPrinted_set_general tbl (bucketOf T k)
    (scanChain k (tbl.getD (bucketOf T k) []) none).2 hlt
  have hm : (((scanChain k (tbl.getD (bucketOf T k) []) none).2).filter
        (fun e => e.printed)).length
      = ((tbl.getD (bucketOf T k) []).filter (fun e => e.printed)).length
        + (((tbl.getD (bucketOf T k) []).filter (fun e => decide (e.id = k))).filter
            (fun e => !e.printed)).length := by
    rw [scanChain_snd]
    exact printedLen_mark k (tbl.getD (bucketOf T k) [])
  omega

theorem scan_some_filter (k : Line) (chain : List IdLoc) (p : Nat)
    (hnd : (chain.map IdLoc.id).Nodup)
    (hscan : (scanChain k chain none).1 = some p) :
    ∃ e0 : IdLoc, chain.filter (fun e => decide (e.id = k)) = [e0]
      ∧ e0 ∈ chain ∧ e0.id = k := by
  rw [scanChain_fst] at hscan
  cases hgl : (chain.filter (fun e => decide (e.id = k))).getLast? with
  | none =>
      rw [hgl] at hscan
      simp at hscan
  | some e0 =>
      have hne : chain.filter (fun e => decide (e.id = k)) ≠ [] := by
        intro hnil
        rw [hnil] at hgl
        cases hgl
      have hle := filter_id_len_le_one k chain hnd
      have hge : 1 ≤ (chain.filter (fun e => decide (e.id = k))).length :=
        Nat.pos_of_ne_zero (fun h0 => hne (List.length_eq_zero.mp h0))
      have h1 : (chain.filter (fun e => decide (e.id = k))).length = 1 := by omega
      obtain ⟨a, hfa⟩ := List.length_eq_one.mp h1
      have hae : a = e0 := by
        rw [hfa] at hgl
        simpa using hgl
      have hmem : e0 ∈ chain.filter (fun e => decide (e.id = k)) := by
        rw [hfa, hae]
        simp
      refine ⟨e0, by rw [hfa, hae], (List.mem_filter.mp hmem).1, ?_⟩
      have := (List.mem_filter.mp hmem).2
      simpa using this

theorem scan_none_filter (k : Line) (chain : List IdLoc)
    (hscan : (scanChain k chain none).1 = none) :
    chain.filter (fun e => decide (e.id = k)) = [] := by
  rw [scanChain_fst] at hscan
  cases hgl : (chain.filter (fun e => decide (e.id = k))).getLast? with
  | none => exact List.getLast?_eq_none_iff.mp hgl
  | some e0 =>
      rw [hgl] at hscan
      simp at hscan

theorem prInR_set_mark (T : Nat) (ltbl rtbl : List (List IdLoc)) (k : Line)
    (hT : 0 < T) (hrlen : rtbl.length = T)
    (hpr : ∀ b : Nat, ∀ e ∈ ltbl.getD b [], e.printed = true →
        inTable T rtbl e.id = true) :
    ∀ b : Nat, ∀ e ∈ (ltbl.set (bucketOf T k)
        (scanChain k (ltbl.getD (bucketOf T k) []) none).2).getD b [],
      e.printed = true →
      inTable T (rtbl.set (bucketOf T k)
          (⟨k, 0, false⟩ :: rtbl.getD (bucketOf T k) [])) e.id = true := by
  intro b e he hep
  have hbr : bucketOf T k < rtbl.length := by
    rw [hrlen]
    exact Nat.mod_lt _ hT
  by_cases hbb : b = bucketOf T k
  · by_cases hlt : bucketOf T k < ltbl.length
    · rw [hbb, getD_set_self _ _ _ _ hlt, scanChain_snd] at he
      obtain ⟨e1, he1, heq⟩ := List.mem_map.mp he
      by_cases hk : e1.id = k
      · rw [if_pos hk] at heq
        have hid : e.id = k := by
          rw [← heq]
          exact hk
        rw [hid, inTable, getD_set_self _ _ _ _ hbr]
        simp [chainHasId]
      · rw [if_neg hk] at heq
        have hep1 : e1.printed = true := by
          rw [heq]
          exact hep
        have hit := hpr (bucketOf T k) e1 he1 hep1
        have := inTable_mono T rtbl (bucketOf T k) ⟨k, 0, false⟩ e1.id hit
        rw [← heq]
        exact this
    · rw [List.set_eq_of_length_le (by omega)] at he
      exact inTable_mono T rtbl _ _ _ (hpr b e he hep)
  · rw [getD_set_ne _ _ _ _ _ (by omega)] at he
    exact inTable_mono T rtbl _ _ _ (hpr b e he hep)


theorem stepRight_inv (cfg : Config) (hd : cfg.deduplicate = true)
    (hT : 0 < cfg.tablesize) (lrecs : List FastqRecord) (st : RunState)
    (r : FastqRecord)
    (hlen : st.ltable.length = cfg.tablesize)
    (hrlen : st.rtable.length = cfg.tablesize)
    (hnd : ∀ b : Nat, ((st.ltable.getD b []).map IdLoc.id).Nodup)
    (hlp : st.lp = nPrinted st.ltable)
    (hpr : ∀ b : Nat, ∀ e ∈ st.ltable.getD b [], e.printed = true →
        inTable cfg.tablesize st.rtable e.id = true) :
    (stepRight cfg lrecs st r).ltable.length = cfg.tablesize ∧
    (stepRight cfg lrecs st r).rtable.length = cfg.tablesize ∧
    (∀ b : Nat, (((stepRight cfg lrecs st r).ltable.getD b []).map IdLoc.id).Nodup) ∧
    (stepRight cfg lrecs st r).lp = nPrinted (stepRight cfg lrecs st r).ltable ∧
    (∀ b : Nat, ∀ e ∈ (stepRight cfg lrecs st r).ltable.getD b [],
        e.printed = true →
        inTable cfg.tablesize (stepRight cfg lrecs st r).rtable e.id = true) ∧
    nEntries (stepRight cfg lrecs st r).ltable = nEntries st.ltable ∧
    (stepRight cfg lrecs st r).ld = st.ld ∧
    (stepRight cfg lrecs st r).rp + (stepRight cfg lrecs st r).rs
        + (stepRight cfg lrecs st r).rd
      = st.rp + st.rs + st.rd + 1 := by
  have hbl : bucketOf cfg.tablesize (normalizeId cfg.splitspace r.header)
      < st.ltable.length := by
    rw [hlen]
    exact Nat.mod_lt _ hT
  simp only [stepRight, hd, Bool.true_and, eq_self_iff_true, if_true]
  split
  · -- duplicate-hit branch: only rd changes
    exact ⟨hlen, hrlen, hnd, hlp, fun b e he hep => hpr b e he hep, rfl, rfl,
      by dsimp only; omega⟩
  · -- miss branch: insert into right table, scan and mark the left chain
    next hmiss =>
    split
    · -- a match was found
      next p hscan =>
      refine ⟨?_, ?_, ?_, ?_, ?_, ?_, rfl, ?_⟩
      · simp [List.length_set, hlen]
      · simp [List.length_set, hrlen]
      · exact nodup_set_mark cfg.tablesize st.ltable _ hnd
      · obtain ⟨e0, hf, he0c, he0k⟩ := scan_some_filter _ _ p
          (hnd (bucketOf cfg.tablesize (normalizeId cfg.splitspace r.header))) hscan
        have he0un : e0.printed = false := by
          by_contra hc
          have hc' : e0.printed = true := by
            simpa using hc
          have hin := hpr _ e0 he0c hc'
          rw [he0k] at hin
          rw [inTable] at hin
          rw [hin] at hmiss
          exact hmiss rfl
        have hmark := nPrinted_set_mark cfg.tablesize st.ltable
          (normalizeId cfg.splitspace r.header) hbl
        rw [hf] at hmark
        rw [List.filter_cons] at hmark
        simp only [he0un] at hmark
        simp only [Bool.not_false, if_pos] at hmark
        simp only [List.filter_nil, List.length_cons, List.length_nil] at hmark
        dsimp only
        rw [hlp, hmark]
      · exact prInR_set_mark cfg.tablesize st.ltable st.rtable _ hT hrlen hpr
      · exact nEntries_set_mark cfg.tablesize st.ltable _ hbl
      · dsimp only
        omega
    · -- no match
      next hscan =>
      refine ⟨?_, ?_, ?_, ?_, ?_, ?_, rfl, ?_⟩
      · simp [List.length_set, hlen]
      · simp [List.length_set, hrlen]
      · exact nodup_set_mark cfg.tablesize st.ltable _ hnd
      · have hmark := nPrinted_set_mark cfg.tablesize st.ltable
          (normalizeId cfg.splitspace r.header) hbl
        rw [scan_none_filter _ _ hscan] at hmark
        simp only [List.filter_nil, List.length_nil, Nat.add_zero] at hmark
        dsimp only
        rw [hlp, hmark]
      · exact prInR_set_mark cfg.tablesize st.ltable st.rtable _ hT hrlen hpr
      · exact nEntries_set_mark cfg.tablesize st.ltable _ hbl
      · dsimp only
        omega


theorem foldl_stepRight_inv (cfg : Config) (hd : cfg.deduplicate = true)
    (hT : 0 < cfg.tablesize) (lrecs : List FastqRecord) :
    ∀ (rr : List FastqRecord) (st : RunState),
      st.ltable.length = cfg.tablesize →
      st.rtable.length = cfg.tablesize →
      (∀ b : Nat, ((st.ltable.getD b []).map IdLoc.id).Nodup) →
      st.lp = nPrinted st.ltable →
      (∀ b : Nat, ∀ e ∈ st.ltable.getD b [], e.printed = true →
          inTable cfg.tablesize st.rtable e.id = true) →
      (rr.foldl (stepRight cfg lrecs) st).lp
          = nPrinted (rr.foldl (stepRight cfg lrecs) st).ltable ∧
      nEntries (rr.foldl (stepRight cfg lrecs) st).ltable = nEntries st.ltable ∧
      (rr.foldl (stepRight cfg lrecs) st).ld = st.ld ∧
      (rr.foldl (stepRight cfg lrecs) st).rp + (rr.foldl (stepRight cfg lrecs) st).rs
          + (rr.foldl (stepRight cfg lrecs) st).rd
        = st.rp + st.rs + st.rd + rr.length := by
  intro rr
  induction rr with
  | nil =>
      intro st h1 h2 h3 h4 h5
      exact ⟨h4, rfl, rfl, by simp⟩
  | cons r rest ih =>
      intro st h1 h2 h3 h4 h5
      obtain ⟨s1, s2, s3, s4, s5, s6, s7, s8⟩ :=
        stepRight_inv cfg hd hT lrecs st r h1 h2 h3 h4 h5
      obtain ⟨a1, a2, a3, a4⟩ := ih (stepRight cfg lrecs st r) s1 s2 s3 s4 s5
      simp only [List.foldl_cons]
      refine ⟨a1, ?_, ?_, ?_⟩
      · rw [a2, s6]
      · rw [a3, s7]
      · rw [a4]
        simp only [List.length_cons]
        omega

/-- C10: with duplicate tracking enabled, every record is accounted
for by exactly one counter per side: at end of run
`left_paired + left_single + left_duplicates` equals the number of
left-stream records, and `right_paired + right_single +
right_duplicates` equals the number of right-stream records. -/
theorem c10_counter_accounting (cfg : Config) (lrecs rrecs : List FastqRecord)
    (hd : cfg.deduplicate = true) (hT : 0 < cfg.tablesize) :
    (pairFiles cfg lrecs rrecs).lp + (pairFiles cfg lrecs rrecs).ls
        + (pairFiles cfg lrecs rrecs).ld = lrecs.length ∧
    (pairFiles cfg lrecs rrecs).rp + (pairFiles cfg lrecs rrecs).rs
        + (pairFiles cfg lrecs rrecs).rd = rrecs.length := by
  obtain ⟨hbl1, hbl2, hbl3, hbl4⟩ :=
    buildLeft_inv cfg.splitspace cfg.tablesize hT lrecs
  have hst0 : initRun cfg (buildLeft cfg.deduplicate cfg.splitspace cfg.tablesize lrecs)
      = initRun cfg (buildLeft true cfg.splitspace cfg.tablesize lrecs) := by
    rw [hd]
  have hfold := foldl_stepRight_inv cfg hd hT lrecs rrecs
    (initRun cfg (buildLeft true cfg.splitspace cfg.tablesize lrecs))
    hbl1 (by simp [initRun]) hbl2 hbl3.symm
    (fun b e he hep => by
      rw [unprinted_of_nPrinted_zero _ hbl3 b e he] at hep
      cases hep)
  obtain ⟨f1, f2, f3, f4⟩ := hfold
  have hlp : (pairFiles cfg lrecs rrecs).lp
      = (rrecs.foldl (stepRight cfg lrecs)
          (initRun cfg (buildLeft true cfg.splitspace cfg.tablesize lrecs))).lp := by
    rw [← hst0]
    rfl
  have hld : (pairFiles cfg lrecs rrecs).ld
      = (rrecs.foldl (stepRight cfg lrecs)
          (initRun cfg (buildLeft true cfg.splitspace cfg.tablesize lrecs))).ld := by
    rw [← hst0]
    rfl
  have hrp : (pairFiles cfg lrecs rrecs).rp
      = (rrecs.foldl (stepRight cfg lrecs)
          (initRun cfg (buildLeft true cfg.splitspace cfg.tablesize lrecs))).rp := by
    rw [← hst0]
    rfl
  have hrs : (pairFiles cfg lrecs rrecs).rs
      = (rrecs.foldl (stepRight cfg lrecs)
          (initRun cfg (buildLeft true cfg.splitspace cfg.tablesize lrecs))).rs := by
    rw [← hst0]
    rfl
  have hrd : (pairFiles cfg lrecs rrecs).rd
      = (rrecs.foldl (stepRight cfg lrecs)
          (initRun cfg (buildLeft true cfg.splitspace cfg.tablesize lrecs))).rd := by
    rw [← hst0]
    rfl
  have hls : (pairFiles cfg lrecs rrecs).ls
      = (orphanEmit cfg lrecs
          (rrecs.foldl (stepRight cfg lrecs)
            (initRun cfg (buildLeft true cfg.splitspace cfg.tablesize lrecs))).ltable).2 := by
    rw [← hst0]
    rfl
  have horph : (orphanEmit cfg lrecs
        (rrecs.foldl (stepRight cfg lrecs)
          (initRun cfg (buildLeft true cfg.splitspace cfg.tablesize lrecs))).ltable).2
      = ((entriesOf (rrecs.foldl (stepRight cfg lrecs)
          (initRun cfg (buildLeft true cfg.splitspace cfg.tablesize lrecs))).ltable).filter
            (fun e => !e.printed)).length := by
    rw [orphanEmit, orphan_tbl_foldl]
    simp
  have hsplit := filter_split_length (fun e : IdLoc => e.printed)
    (entriesOf (rrecs.foldl (stepRight cfg lrecs)
      (initRun cfg (buildLeft true cfg.splitspace cfg.tablesize lrecs))).ltable)
  have hil : (initRun cfg (buildLeft true cfg.splitspace cfg.tablesize lrecs)).ltable
      = (buildLeft true cfg.splitspace cfg.tablesize lrecs).table := rfl
  have hild : (initRun cfg (buildLeft true cfg.splitspace cfg.tablesize lrecs)).ld
      = (buildLeft true cfg.splitspace cfg.tablesize lrecs).dups := rfl
  constructor
  · rw [hlp, hls, hld, horph, f1, f3, hild]
    rw [hil] at f2
    have hnp : nPrinted (rrecs.foldl (stepRight cfg lrecs)
        (initRun cfg (buildLeft true cfg.splitspace cfg.tablesize lrecs))).ltable
        = ((entriesOf (rrecs.foldl (stepRight cfg lrecs)
          (initRun cfg (buildLeft true cfg.splitspace cfg.tablesize lrecs))).ltable).filter
            (fun e => e.printed)).length := rfl
    have hne : nEntries (rrecs.foldl (stepRight cfg lrecs)
        (initRun cfg (buildLeft true cfg.splitspace cfg.tablesize lrecs))).ltable
        = (entriesOf (rrecs.foldl (stepRight cfg lrecs)
          (initRun cfg (buildLeft true cfg.splitspace cfg.tablesize lrecs))).ltable).length := rfl
    omega
  · rw [hrp, hrs, hrd, f4]
    simp [initRun]


/-- Closed witness for C10: a dedup run with a duplicated left id. -/
theorem c10_counter_accounting_witness :
    (⟨1, true, false, false⟩ : Config).deduplicate = true ∧ (0 : Nat) < 1 ∧
      ((pairFiles ⟨1, true, false, false⟩
            [⟨"A/1".toList, [], [], []⟩, ⟨"A/1".toList, [], [], []⟩]
            [⟨"A/2".toList, [], [], []⟩]).lp
          + (pairFiles ⟨1, true, false, false⟩
              [⟨"A/1".toList, [], [], []⟩, ⟨"A/1".toList, [], [], []⟩]
              [⟨"A/2".toList, [], [], []⟩]).ls
          + (pairFiles ⟨1, true, false, false⟩
              [⟨"A/1".toList, [], [], []⟩, ⟨"A/1".toList, [], [], []⟩]
              [⟨"A/2".toList, [], [], []⟩]).ld = 2 ∧
        (pairFiles ⟨1, true, false, false⟩
            [⟨"A/1".toList, [], [], []⟩, ⟨"A/1".toList, [], [], []⟩]
            [⟨"A/2".toList, [], [], []⟩]).rp
          + (pairFiles ⟨1, true, false, false⟩
              [⟨"A/1".toList, [], [], []⟩, ⟨"A/1".toList, [], [], []⟩]
              [⟨"A/2".toList, [], [], []⟩]).rs
          + (pairFiles ⟨1, true, false, false⟩
              [⟨"A/1".toList, [], [], []⟩, ⟨"A/1".toList, [], [], []⟩]
              [⟨"A/2".toList, [], [], []⟩]).rd = 1) :=
  ⟨rfl, by decide,
   c10_counter_accounting ⟨1, true, false, false⟩
     [⟨"A/1".toList, [], [], []⟩, ⟨"A/1".toList, [], [], []⟩]
     [⟨"A/2".toList, [], [], []⟩] rfl (by decide)⟩

end FastqPair
